import Mathlib

set_option linter.unusedSectionVars false

/-!
Verification development for `pyalgotrade/dispatcher.py`: the event
Dispatcher — its priority-ordered subject registry (`addSubject`), the
dispatch step (`Dispatcher.__dispatch` / `__dispatchSubject`) and the run
loop (`Dispatcher.run`).

The Python code is shallowly embedded:

* Timestamps (`datetime` values) are embedded as a linearly ordered type,
  instantiated with `Nat` in concrete scenarios; a subject's
  `peekDateTime()` returns `Option τ` (`none` is Python `None`, the
  realtime case).
* The subject registry (`Dispatcher.addSubject`) works on subject records
  carrying their dispatch priority; `dispatchprio.LAST` (Python `None`)
  is embedded as `Option.none`.
* The dispatch loop works on a list of subject *states* (one per
  registered subject, in registry order) together with a record of
  operations `eof` / `peekDateTime` / `dispatch` shared by all subjects —
  a subject's state changes only when the dispatcher calls `dispatch` on
  it, exactly as in the single-threaded Python loop.
* `Dispatcher.run` is embedded with explicit fuel for the `while` loop and
  produces a trace of the observable actions (subject `start` calls, the
  start signal, each `__dispatch` step, idle-signal emissions, the
  teardown `stop`/`join` calls).  Signal emission (`observer.Event.emit`)
  is recorded as a trace event.
* The `PYALGOTRADE_NEVER_STOP` environment toggle is modelled as unset
  (the spec treats it as an external operational policy, not part of the
  scheduling core), so the `os.kill`/recursive-restart branches are dead
  and omitted.
* For the error-handling claim, a second rendering of the same loop
  (`runE`) lets every subject call fail with an exception value, mirroring
  the `try/except/finally` of `Dispatcher.run`.
-/

namespace Dispatcher

/-! ## The subject registry (`Dispatcher.addSubject`)

`dispatchprio.LAST` is Python `None`; every other priority is an integer.
A registry entry is compared for membership the way Python's `in` compares
objects; distinct subjects are distinguished by `sid`. -/

/-- A registered subject as the registry sees it: an identity and its
`getDispatchPriority()` value.  `prio = none` is `dispatchprio.LAST`. -/
structure SubjectR where
  sid : Nat
  prio : Option Nat
deriving DecidableEq, Repr

/-- The scan-and-insert of `Dispatcher.addSubject`'s non-`LAST` branch:
walk the registry and insert the new subject right before the first
occupant that has priority `LAST` or strictly greater priority. -/
def insertByPrio (p : Nat) (x : SubjectR) : List SubjectR → List SubjectR
  | [] => [x]
  | s :: rest =>
    match s.prio with
    | none => x :: s :: rest
    | some q => if p < q then x :: s :: rest else s :: insertByPrio p x rest

/-- `Dispatcher.addSubject`: skip a subject already present; append a
`LAST`-priority subject at the end; otherwise insert by priority. -/
def addSubject (subs : List SubjectR) (x : SubjectR) : List SubjectR :=
  if x ∈ subs then subs
  else
    match x.prio with
    | none => subs ++ [x]
    | some p => insertByPrio p x subs

/-- The registry after a sequence of `addSubject` calls on a fresh
dispatcher. -/
def addAll (inputs : List SubjectR) : List SubjectR :=
  inputs.foldl addSubject []

/-- The insertion order of the distinct subjects in a call sequence:
each subject in order of its first successful addition. -/
def firstAdds (inputs : List SubjectR) : List SubjectR :=
  inputs.foldl (fun acc x => if x ∈ acc then acc else acc ++ [x]) []

/-- Registry ordering relation: `a` may sit before `b` iff `b` is `LAST`,
or both have real priorities and `a`'s is not larger. -/
def keyLE (a b : SubjectR) : Prop :=
  match b.prio with
  | none => True
  | some qb =>
    match a.prio with
    | none => False
    | some pa => pa ≤ qb

instance (a b : SubjectR) : Decidable (keyLE a b) := by
  unfold keyLE
  cases b.prio with
  | none => exact inferInstanceAs (Decidable True)
  | some qb =>
    cases a.prio with
    | none => exact inferInstanceAs (Decidable False)
    | some pa => exact inferInstanceAs (Decidable (pa ≤ qb))

/-! ## The dispatch loop

Subject states live in a type `σ`; the operations a subject exposes to the
dispatcher are pure functions of the state.  Timestamps live in a linearly
ordered type `τ`. -/

/-- The capability set `Dispatcher` consumes from each subject
(`eof`, `peekDateTime`, `dispatch`, and the lifecycle calls `start`,
`stop`, `join`).  `dispatch` returns the new subject state and whether
anything was actually dispatched (`subject.dispatch() is True`). -/
structure SubjectOps (σ τ : Type) where
  eof : σ → Bool
  peekDateTime : σ → Option τ
  dispatch : σ → σ × Bool
  start : σ → σ
  stop : σ → σ
  join : σ → σ

/-- The dispatcher's mutable state: the registered subjects' states in
registry order, `self.__currDateTime` and `self.__stop`. -/
structure DState (σ τ : Type) where
  subjects : List σ
  currDateTime : Option τ
  stopFlag : Bool
deriving Repr, DecidableEq

/-- Modelled from the spec: `utils.safe_min` (the helper `utils.py` is not
part of the staged sources) — "compute the minimum of all non-none
candidate timestamps; subjects that return `none` for peek do not
constrain the minimum". -/
def safe_min {τ : Type} [LinearOrder τ] : Option τ → Option τ → Option τ
  | none, right => right
  | left, none => left
  | some a, some b => some (min a b)

variable {σ τ : Type} [LinearOrder τ]

/-- One subject's contribution to the scan loop of `Dispatcher.__dispatch`:
the accumulator carries (`eof`, `smallestDateTime`); a non-exhausted
subject clears `eof` and folds its peek into `smallestDateTime`. -/
def scanStep (ops : SubjectOps σ τ) (acc : Bool × Option τ) (s : σ) :
    Bool × Option τ :=
  if ops.eof s then acc else (false, safe_min acc.2 (ops.peekDateTime s))

/-- The guard of `Dispatcher.__dispatchSubject`: dispatch iff not at eof
and `peekDateTime() in (None, currEventDateTime)`. -/
def wouldDispatch (ops : SubjectOps σ τ) (t : Option τ) (s : σ) : Bool :=
  !ops.eof s &&
    (decide (ops.peekDateTime s = none) || decide (ops.peekDateTime s = t))

/-- `Dispatcher.__dispatchSubject`: returns the subject's next state and
whether events were dispatched. -/
def dispatchSubject (ops : SubjectOps σ τ) (s : σ) (t : Option τ) :
    σ × Bool :=
  if wouldDispatch ops t s then ops.dispatch s else (s, false)

/-- The second loop of `Dispatcher.__dispatch`, instrumented: besides the
updated states and the `eventsDispatched` flag it reports, for each
subject whose `dispatch()` was invoked, `(position, peek value, result)`.
`i` is the position of the first subject of the sublist. -/
def dispatchPass (ops : SubjectOps σ τ) (t : Option τ) :
    Nat → List σ → List σ × Bool × List (Nat × Option τ × Bool)
  | _, [] => ([], false, [])
  | i, s :: rest =>
    let out := dispatchSubject ops s t
    let tail := dispatchPass ops t (i + 1) rest
    (out.1 :: tail.1, (out.2 || tail.2.1),
      if wouldDispatch ops t s then (i, ops.peekDateTime s, out.2) :: tail.2.2
      else tail.2.2)

/-- `Dispatcher.__dispatch`: scan for the lowest datetime, then (unless
every subject is at eof) set `__currDateTime` and dispatch the realtime
subjects and those at the lowest datetime.  Returns the new dispatcher
state, the `(eof, eventsDispatched)` pair of the source, and the
instrumented list of dispatch calls. -/
def dispatchOnce (ops : SubjectOps σ τ) (st : DState σ τ) :
    DState σ τ × Bool × Bool × List (Nat × Option τ × Bool) :=
  let scan := st.subjects.foldl (scanStep ops) (true, none)
  if scan.1 then (st, true, false, [])
  else
    let pass := dispatchPass ops scan.2 0 st.subjects
    ({ st with subjects := pass.1, currDateTime := scan.2 },
      false, pass.2.1, pass.2.2)

/-! ## The run loop (`Dispatcher.run`) -/

/-- One observable action of `Dispatcher.run`: a subject `start()` call, the
start-signal emission, one `__dispatch` step (with its `(eof,
eventsDispatched)` result, the value of `__currDateTime` after the step and
the instrumented dispatch calls), an idle-signal emission, and the teardown
`stop()` / `join()` calls. -/
inductive RunEvent (τ : Type) where
  | started (i : Nat)
  | startSignal
  | step (eofAll anyDispatched : Bool) (currTime : Option τ)
      (calls : List (Nat × Option τ × Bool))
  | idleSignal
  | stopCall (i : Nat)
  | joinCall (i : Nat)
deriving DecidableEq, Repr

/-- The `while not self.__stop` loop of `Dispatcher.run`, with explicit
fuel.  Returns the emitted trace, the final state, and whether the loop
exited through its condition (`true`) or ran out of fuel (`false`). -/
def runLoop (ops : SubjectOps σ τ) :
    Nat → DState σ τ → List (RunEvent τ) × DState σ τ × Bool
  | 0, st => ([], st, st.stopFlag)
  | fuel + 1, st =>
    if st.stopFlag then ([], st, true)
    else
      let d := dispatchOnce ops st
      let st' :=
        if d.2.1 then { d.1 with stopFlag := true } else d.1
      let evts :=
        RunEvent.step d.2.1 d.2.2.1 d.1.currDateTime d.2.2.2 ::
          (if !d.2.1 && !d.2.2.1 then [RunEvent.idleSignal] else [])
      let rest := runLoop ops fuel st'
      (evts ++ rest.1, rest.2)

/-- `Dispatcher.run` (with `PYALGOTRADE_NEVER_STOP` unset): start every
subject in registry order, emit the start signal, run the loop, then in the
`finally` block clear `__currDateTime` and call `stop()` and `join()` on
every subject.  Returns the trace, the final state, and the loop's
finished flag. -/
def run (ops : SubjectOps σ τ) (fuel : Nat) (st : DState σ τ) :
    List (RunEvent τ) × DState σ τ × Bool :=
  let n := st.subjects.length
  let st0 : DState σ τ := { st with subjects := st.subjects.map ops.start }
  let loop := runLoop ops fuel st0
  let st1 := loop.2.1
  let st2 : DState σ τ :=
    { st1 with currDateTime := none,
               subjects := (st1.subjects.map ops.stop).map ops.join }
  ((List.range n).map RunEvent.started ++ [RunEvent.startSignal] ++ loop.1
      ++ (List.range st1.subjects.length).map RunEvent.stopCall
      ++ (List.range st1.subjects.length).map RunEvent.joinCall,
    st2, loop.2.2)

/-! ## The run loop with failing subjects (`try/except/finally`)

For the error-handling claim the same code is rendered once more with
subject calls that may raise: a raising call yields `Except.error e`,
which propagates out of the loop exactly as a Python exception does, is
caught by the `except` clause of `Dispatcher.run`, and the `finally`
block still tears every subject down.  `stop`/`join` are kept infallible
(the claim is about faults during the running phase). -/

/-- The subject capability set where `start`, `eof`, `peekDateTime` and
`dispatch` may raise an exception of type `ε`. -/
structure SubjectOpsE (σ τ ε : Type) where
  start : σ → Except ε σ
  eof : σ → Except ε Bool
  peekDateTime : σ → Except ε (Option τ)
  dispatch : σ → Except ε (σ × Bool)
  stop : σ → σ
  join : σ → σ

variable {ε : Type}

/-- `Dispatcher.__dispatchSubject` with failing calls: the new state, the
result, and the first exception raised (the state is unchanged past the
raising call). -/
def dispatchSubjectE (ops : SubjectOpsE σ τ ε) (s : σ) (t : Option τ) :
    (σ × Bool) × Option ε :=
  match ops.eof s with
  | .error e => ((s, false), some e)
  | .ok true => ((s, false), none)
  | .ok false =>
    match ops.peekDateTime s with
    | .error e => ((s, false), some e)
    | .ok p =>
      if p = none ∨ p = t then
        match ops.dispatch s with
        | .error e => ((s, false), some e)
        | .ok sr => (sr, none)
      else ((s, false), none)

/-- The scan loop of `Dispatcher.__dispatch` with failing calls: an
exception aborts the scan. -/
def scanE (ops : SubjectOpsE σ τ ε) :
    List σ → Bool × Option τ → (Bool × Option τ) × Option ε
  | [], acc => (acc, none)
  | s :: rest, acc =>
    match ops.eof s with
    | .error e => (acc, some e)
    | .ok true => scanE ops rest acc
    | .ok false =>
      match ops.peekDateTime s with
      | .error e => ((false, acc.2), some e)
      | .ok p => scanE ops rest (false, safe_min acc.2 p)

/-- The dispatch loop of `Dispatcher.__dispatch` with failing calls: an
exception aborts the loop, keeping the states already updated. -/
def dispatchPassE (ops : SubjectOpsE σ τ ε) (t : Option τ) :
    List σ → List σ × Bool × Option ε
  | [] => ([], false, none)
  | s :: rest =>
    let out := dispatchSubjectE ops s t
    match out.2 with
    | some e => (out.1.1 :: rest, out.1.2, some e)
    | none =>
      let tail := dispatchPassE ops t rest
      (out.1.1 :: tail.1, out.1.2 || tail.2.1, tail.2.2)

/-- `Dispatcher.__dispatch` with failing calls. -/
def dispatchOnceE (ops : SubjectOpsE σ τ ε) (st : DState σ τ) :
    DState σ τ × Bool × Bool × Option ε :=
  let scan := scanE ops st.subjects (true, none)
  match scan.2 with
  | some e => (st, false, false, some e)
  | none =>
    if scan.1.1 then (st, true, false, none)
    else
      let pass := dispatchPassE ops scan.1.2 st.subjects
      ({ st with subjects := pass.1, currDateTime := scan.1.2 },
        false, pass.2.1, pass.2.2)

/-- The `while` loop of `Dispatcher.run` with failing calls: an exception
ends the loop (it propagates to the `except` clause); the trace of the
completed iterations is kept. -/
def runLoopE (ops : SubjectOpsE σ τ ε) :
    Nat → DState σ τ → List (RunEvent τ) × DState σ τ × Option ε
  | 0, st => ([], st, none)
  | fuel + 1, st =>
    if st.stopFlag then ([], st, none)
    else
      let d := dispatchOnceE ops st
      match d.2.2.2 with
      | some e => ([], d.1, some e)
      | none =>
        let st' := if d.2.1 then { d.1 with stopFlag := true } else d.1
        let evts :=
          RunEvent.step d.2.1 d.2.2.1 d.1.currDateTime [] ::
            (if !d.2.1 && !d.2.2.1 then [RunEvent.idleSignal] else [])
        let rest := runLoopE ops fuel st'
        (evts ++ rest.1, rest.2)

/-- The start loop of `Dispatcher.run` with failing calls: subjects are
started in registry order until one raises; `i` is the position of the
first subject of the sublist. -/
def startAllE (ops : SubjectOpsE σ τ ε) (i : Nat) :
    List σ → List σ × List (RunEvent τ) × Option ε
  | [] => ([], [], none)
  | s :: rest =>
    match ops.start s with
    | .error e => (s :: rest, [], some e)
    | .ok s' =>
      let tail := startAllE ops (i + 1) rest
      (s' :: tail.1, RunEvent.started i :: tail.2.1, tail.2.2)

/-- `Dispatcher.run` with failing subject calls: the `try` body starts the
subjects, emits the start signal and runs the loop; any exception is
caught (`except Exception: logger.error`), and the `finally` block clears
`__currDateTime` and calls `stop()` then `join()` on every registered
subject.  The function returns normally in every case. -/
def runE (ops : SubjectOpsE σ τ ε) (fuel : Nat) (st : DState σ τ) :
    List (RunEvent τ) × DState σ τ :=
  let sa := startAllE ops 0 st.subjects
  let body :=
    match sa.2.2 with
    | some _ => (sa.2.1, { st with subjects := sa.1 })
    | none =>
      let loop := runLoopE ops fuel { st with subjects := sa.1 }
      (sa.2.1 ++ [RunEvent.startSignal] ++ loop.1, loop.2.1)
  let st2 := body.2
  let st3 : DState σ τ :=
    { st2 with currDateTime := none,
               subjects := (st2.subjects.map ops.stop).map ops.join }
  (body.1 ++ (List.range st2.subjects.length).map RunEvent.stopCall
      ++ (List.range st2.subjects.length).map RunEvent.joinCall, st3)

/-! ## Spec-side predicates and trace observations -/

/-- `t?` is the minimum of the non-`none` peek timestamps of the
non-exhausted subjects of `l` (`none` when every live subject peeks
`none`). -/
def IsLiveMin (ops : SubjectOps σ τ) (l : List σ) (t? : Option τ) : Prop :=
  (t? = none → ∀ s ∈ l, ops.eof s = false → ops.peekDateTime s = none) ∧
  ∀ t, t? = some t →
    (∃ s ∈ l, ops.eof s = false ∧ ops.peekDateTime s = some t) ∧
    ∀ s ∈ l, ops.eof s = false →
      ∀ u, ops.peekDateTime s = some u → t ≤ u

/-- A subject population behaving as time-ordered sources: dispatching
never lowers a pending timestamp below the timestamp of the event just
dispatched, and a subject with no pending timestamp (a realtime source)
stays a realtime source. -/
def TimeOrdered (ops : SubjectOps σ τ) : Prop :=
  ∀ s : σ,
    (∀ u v, ops.peekDateTime s = some u →
      ops.peekDateTime (ops.dispatch s).1 = some v → u ≤ v) ∧
    (ops.peekDateTime s = none → ops.peekDateTime (ops.dispatch s).1 = none)

/-- `t` lower-bounds every pending timestamp of every live subject. -/
def LiveLB (ops : SubjectOps σ τ) (t : τ) (l : List σ) : Prop :=
  ∀ s ∈ l, ops.eof s = false → ∀ u, ops.peekDateTime s = some u → t ≤ u

/-- The non-`none` values taken by `__currDateTime` at the dispatch steps
of a trace, in order. -/
def observedTimes (tr : List (RunEvent τ)) : List τ :=
  tr.filterMap fun e =>
    match e with
    | RunEvent.step _ _ ct _ => ct
    | _ => none

/-- The timestamps of the dispatch calls of one event that actually
delivered something (`dispatchOne()` returned true). -/
def stepTs : RunEvent τ → List τ
  | RunEvent.step _ _ _ calls =>
    (calls.filter fun c => c.2.2).filterMap fun c => c.2.1
  | _ => []

/-- All delivered timestamps of a trace, in dispatch order. -/
def dispatchedTs (tr : List (RunEvent τ)) : List τ :=
  tr.foldr (fun e acc => stepTs e ++ acc) []

/-- Whether an event is a dispatch step. -/
def isStep : RunEvent τ → Bool
  | RunEvent.step _ _ _ _ => true
  | _ => false

/-- Whether a trace does not begin with an idle-signal emission. -/
def noIdleHead : List (RunEvent τ) → Bool
  | RunEvent.idleSignal :: _ => false
  | _ => true

/-- The idle-signal discipline of a trace: every idle signal immediately
follows a dispatch step that returned `(allExhausted, anyDispatched) =
(false, false)`, every such step is immediately followed by exactly one
idle signal, and no other step is followed by one. -/
def idleOk : List (RunEvent τ) → Bool
  | [] => true
  | RunEvent.step e a _ _ :: RunEvent.idleSignal :: rest =>
    (!e && !a) && idleOk rest
  | RunEvent.step e a _ _ :: rest => (e || a) && idleOk rest
  | RunEvent.idleSignal :: _ => false
  | _ :: rest => idleOk rest

/-! ## Concrete subjects for the scenarios -/

/-- A fake historical subject: its state is the list of timestamps it has
yet to deliver; `dispatch` delivers the first one. -/
def fakeOps : SubjectOps (List Nat) Nat where
  eof s := s.isEmpty
  peekDateTime s := s.head?
  dispatch s := (s.tail, true)
  start s := s
  stop s := s
  join s := s

/-- The merge-correctness scenario: three subjects with event sequences
`[1,3,5]`, `[2,3]` and `[]`, registered in that order. -/
def initC2 : DState (List Nat) Nat :=
  { subjects := [[1, 3, 5], [2, 3], []], currDateTime := none,
    stopFlag := false }

/-- A dispatcher with one subject holding a single event, used to observe
a second `run` on the same dispatcher. -/
def initC8 : DState (List Nat) Nat :=
  { subjects := [[1]], currDateTime := none, stopFlag := false }

/-- A time-ordered subject on a finite state space: state `i` pends
timestamp `i`, dispatching advances to `i + 1` (capped), states from 3 on
are exhausted. -/
def finOps : SubjectOps (Fin 4) Nat where
  eof s := decide (3 ≤ s.val)
  peekDateTime s := some s.val
  dispatch s := (⟨min (s.val + 1) 3, by omega⟩, true)
  start s := s
  stop s := s
  join s := s

/-- A failing subject population for the teardown claim: subject state
`k < 100` pends timestamp `k` and `dispatch` raises once `k = 1` (its
second dispatch); state `100` is a subject that is never due (timestamp
`100`) and so is never dispatched. -/
def failOps : SubjectOpsE Nat Nat Unit where
  start s := .ok s
  eof _ := .ok false
  peekDateTime s := .ok (some s)
  dispatch s := if s = 1 then .error () else .ok (s + 1, true)
  stop s := s
  join s := s

/-- The teardown scenario: the failing subject (state `0`) next to a
never-dispatched subject (state `100`). -/
def initC4 : DState Nat Nat :=
  { subjects := [0, 100], currDateTime := none, stopFlag := false }

/-- A dispatcher whose two subjects are both exhausted, with a
non-trivial current datetime. -/
def initC5 : DState (List Nat) Nat :=
  { subjects := [[], []], currDateTime := some 7, stopFlag := false }

/-- Two time-ordered finite-state subjects for the monotonicity claim. -/
def initC7 : DState (Fin 4) Nat :=
  { subjects := [(0 : Fin 4), (2 : Fin 4)], currDateTime := none,
    stopFlag := false }

/-! ## Registry lemmas -/

theorem mem_insertByPrio {p : Nat} {x y : SubjectR} :
    ∀ l : List SubjectR, y ∈ insertByPrio p x l ↔ y = x ∨ y ∈ l := by
  intro l
  induction l with
  | nil => simp [insertByPrio]
  | cons s rest ih =>
    unfold insertByPrio
    cases hs : s.prio with
    | none => simp
    | some q =>
      by_cases hpq : p < q
      · simp [hpq]
      · simp only [if_neg hpq, List.mem_cons, ih]
        tauto

theorem self_mem_addSubject (subs : List SubjectR) (x : SubjectR) :
    x ∈ addSubject subs x := by
  unfold addSubject
  by_cases h : x ∈ subs
  · simp [h]
  · cases hx : x.prio with
    | none => simp [h]
    | some p => simp [h, mem_insertByPrio]

theorem addSubject_of_mem {subs : List SubjectR} {x : SubjectR}
    (h : x ∈ subs) : addSubject subs x = subs := by
  simp [addSubject, h]

theorem keyLE_trans {a b c : SubjectR} (hab : keyLE a b) (hbc : keyLE b c) :
    keyLE a c := by
  unfold keyLE at *
  cases hc : c.prio with
  | none => trivial
  | some qc =>
    rw [hc] at hbc
    cases hb : b.prio with
    | none => rw [hb] at hbc; exact absurd hbc not_false
    | some qb =>
      rw [hb] at hab hbc
      cases ha : a.prio with
      | none => rw [ha] at hab; exact absurd hab not_false
      | some pa => rw [ha] at hab; exact le_trans hab hbc

theorem pairwise_insertByPrio {p : Nat} {x : SubjectR}
    (hx : x.prio = some p) :
    ∀ {l : List SubjectR}, List.Pairwise keyLE l →
      List.Pairwise keyLE (insertByPrio p x l) := by
  intro l
  induction l with
  | nil => intro _; simp [insertByPrio]
  | cons s rest ih =>
    intro h
    rcases List.pairwise_cons.mp h with ⟨hs, hrest⟩
    unfold insertByPrio
    cases hsp : s.prio with
    | none =>
      refine List.pairwise_cons.mpr ⟨?_, h⟩
      intro b hb
      rcases List.mem_cons.mp hb with rfl | hb
      · unfold keyLE; rw [hsp]; trivial
      · have hsb := hs b hb
        unfold keyLE at hsb ⊢
        cases hbp : b.prio with
        | none => trivial
        | some qb => rw [hbp, hsp] at hsb; exact absurd hsb not_false
    | some q =>
      show List.Pairwise keyLE
        (if p < q then x :: s :: rest else s :: insertByPrio p x rest)
      by_cases hpq : p < q
      · rw [if_pos hpq]
        refine List.pairwise_cons.mpr ⟨?_, h⟩
        intro b hb
        rcases List.mem_cons.mp hb with rfl | hb
        · unfold keyLE; rw [hsp, hx]; exact le_of_lt hpq
        · have hsb := hs b hb
          have hxs : keyLE x s := by
            unfold keyLE; rw [hsp, hx]; exact le_of_lt hpq
          exact keyLE_trans hxs hsb
      · rw [if_neg hpq]
        refine List.pairwise_cons.mpr ⟨?_, ih hrest⟩
        intro b hb
        rcases (mem_insertByPrio rest).mp hb with rfl | hb
        · unfold keyLE; rw [hx, hsp]; omega
        · exact hs b hb

theorem filter_none_of_head_stop {p : Nat} {s : SubjectR}
    {rest : List SubjectR} (h : List.Pairwise keyLE (s :: rest))
    (hs : s.prio = none ∨ ∃ q, s.prio = some q ∧ p < q) :
    (s :: rest).filter (fun t => decide (t.prio = some p)) = [] := by
  rw [List.filter_eq_nil_iff]
  intro t ht
  rcases List.mem_cons.mp ht with rfl | ht
  · rcases hs with hn | ⟨q, hq, hpq⟩
    · simp [hn]
    · simp only [hq, decide_eq_true_eq]
      intro hc
      injection hc with hc
      omega
  · have hst := (List.pairwise_cons.mp h).1 t ht
    unfold keyLE at hst
    rcases hs with hn | ⟨q, hq, hpq⟩
    · cases htp : t.prio with
      | none => simp [htp]
      | some qt => rw [htp, hn] at hst; exact absurd hst not_false
    · cases htp : t.prio with
      | none => simp [htp]
      | some qt =>
        rw [htp, hq] at hst
        simp only [htp, decide_eq_true_eq]
        intro hc
        injection hc with hc
        omega

theorem filter_insertByPrio {p : Nat} {x : SubjectR}
    (hx : x.prio = some p) (po : Option Nat) :
    ∀ {l : List SubjectR}, List.Pairwise keyLE l →
      (insertByPrio p x l).filter (fun s => decide (s.prio = po)) =
        l.filter (fun s => decide (s.prio = po)) ++
          (if po = some p then [x] else []) := by
  intro l
  induction l with
  | nil =>
    intro _
    by_cases hpo : po = some p
    · subst hpo
      simp [insertByPrio, hx]
    · have hxpo : (decide (x.prio = po)) = false := by
        simp only [hx, decide_eq_false_iff_not]
        exact fun hc => hpo hc.symm
      simp [insertByPrio, hpo, List.filter_cons, hxpo]
  | cons s rest ih =>
    intro h
    unfold insertByPrio
    cases hsp : s.prio with
    | none =>
      by_cases hpo : po = some p
      · have hnil : (s :: rest).filter (fun t => decide (t.prio = some p)) = [] :=
          filter_none_of_head_stop h (Or.inl hsp)
        subst hpo
        rw [hnil]
        simp [List.filter_cons, hx, hnil]
      · simp only [if_neg hpo, List.append_nil]
        rw [List.filter_cons, List.filter_cons]
        have hxpo : (decide (x.prio = po)) = false := by
          simp only [hx, decide_eq_false_iff_not]
          exact fun hc => hpo hc.symm
        rw [hxpo]
        simp
    | some q =>
      show (if p < q then x :: s :: rest else s :: insertByPrio p x rest).filter
            (fun s => decide (s.prio = po)) =
          (s :: rest).filter (fun s => decide (s.prio = po)) ++
            (if po = some p then [x] else [])
      by_cases hpq : p < q
      · rw [if_pos hpq]
        by_cases hpo : po = some p
        · have hnil : (s :: rest).filter (fun t => decide (t.prio = some p)) = [] :=
            filter_none_of_head_stop h (Or.inr ⟨q, hsp, hpq⟩)
          subst hpo
          rw [hnil]
          simp [List.filter_cons, hx, hnil]
        · simp only [if_neg hpo, List.append_nil]
          rw [List.filter_cons, List.filter_cons]
          have hxpo : (decide (x.prio = po)) = false := by
            simp only [hx, decide_eq_false_iff_not]
            exact fun hc => hpo hc.symm
          rw [hxpo]
          simp
      · rw [if_neg hpq]
        rw [List.filter_cons, List.filter_cons,
          ih (List.pairwise_cons.mp h).2]
        by_cases hspo : (decide (s.prio = po)) = true <;>
          simp [hspo, List.append_assoc]

theorem pairwise_addSubject {subs : List SubjectR} (x : SubjectR)
    (h : List.Pairwise keyLE subs) :
    List.Pairwise keyLE (addSubject subs x) := by
  unfold addSubject
  by_cases hm : x ∈ subs
  · simpa [hm]
  · rw [if_neg hm]
    cases hx : x.prio with
    | none =>
      rw [List.pairwise_append]
      refine ⟨h, List.pairwise_singleton _ _, ?_⟩
      intro a _ b hb
      rw [List.mem_singleton] at hb
      subst hb
      unfold keyLE
      rw [hx]
      trivial
    | some p => exact pairwise_insertByPrio hx h

theorem filter_addSubject {subs : List SubjectR} (x : SubjectR)
    (h : List.Pairwise keyLE subs) (po : Option Nat) :
    (addSubject subs x).filter (fun s => decide (s.prio = po)) =
      subs.filter (fun s => decide (s.prio = po)) ++
        (if x ∈ subs then [] else if x.prio = po then [x] else []) := by
  unfold addSubject
  by_cases hm : x ∈ subs
  · simp [hm]
  · rw [if_neg hm]
    cases hx : x.prio with
    | none =>
      rw [List.filter_append]
      by_cases hpo : (none : Option Nat) = po <;>
        simp [hm, hx, hpo, List.filter_cons]
    | some p =>
      rw [filter_insertByPrio hx po h]
      by_cases hpo : po = some p
      · subst hpo
        simp [hm, hx]
      · have hne : ¬x.prio = po := by
          rw [hx]
          exact fun hc => hpo hc.symm
        simp only [if_neg hm, if_neg hne, if_neg hpo]
        rw [if_neg (fun hc : some p = po => hpo hc.symm)]

theorem addAll_concat (inputs : List SubjectR) (x : SubjectR) :
    addAll (inputs ++ [x]) = addSubject (addAll inputs) x := by
  simp [addAll, List.foldl_append]

theorem firstAdds_concat (inputs : List SubjectR) (x : SubjectR) :
    firstAdds (inputs ++ [x]) =
      if x ∈ firstAdds inputs then firstAdds inputs
      else firstAdds inputs ++ [x] := by
  simp [firstAdds, List.foldl_append]

/-- C3: after any sequence of `addSubject` calls starting from an empty
registry, the registry is `keyLE`-ordered — every non-`LAST` subject
precedes every `LAST` subject and the non-`LAST` priorities are
non-decreasing — and, for every priority class (each real priority and
the `LAST` sentinel), the registry lists exactly the distinct subjects of
that class in the order they were first added; hence equal priorities
keep insertion order and the `LAST` subjects form a suffix in insertion
order. -/
theorem C3_registry_ordering (inputs : List SubjectR) :
    List.Pairwise keyLE (addAll inputs) ∧
    ∀ po : Option Nat,
      (addAll inputs).filter (fun s => decide (s.prio = po)) =
        (firstAdds inputs).filter (fun s => decide (s.prio = po)) := by
  induction inputs using List.reverseRecOn with
  | nil => simp [addAll, firstAdds]
  | append_singleton inputs x ih =>
    rcases ih with ⟨hpw, hfil⟩
    have hmem : x ∈ addAll inputs ↔ x ∈ firstAdds inputs := by
      constructor
      · intro hm
        have : x ∈ (addAll inputs).filter (fun s => decide (s.prio = x.prio)) :=
          List.mem_filter.mpr ⟨hm, by simp⟩
        rw [hfil x.prio] at this
        exact (List.mem_filter.mp this).1
      · intro hm
        have : x ∈ (firstAdds inputs).filter (fun s => decide (s.prio = x.prio)) :=
          List.mem_filter.mpr ⟨hm, by simp⟩
        rw [← hfil x.prio] at this
        exact (List.mem_filter.mp this).1
    constructor
    · rw [addAll_concat]
      exact pairwise_addSubject x hpw
    · intro po
      rw [addAll_concat, firstAdds_concat, filter_addSubject x hpw po,
        hfil po]
      by_cases hm : x ∈ addAll inputs
      · rw [if_pos hm, if_pos (hmem.mp hm)]
        simp
      · rw [if_neg hm, if_neg (fun hc => hm (hmem.mpr hc)),
          List.filter_append]
        by_cases hpo : x.prio = po
        · simp [hpo]
        · simp [hpo, List.filter_cons,
            (by simpa using hpo : (decide (x.prio = po)) = false)]

/-- C9: `addSubject` is idempotent — adding the same subject twice leaves
the registry exactly as after the first call. -/
theorem C9_addSubject_idempotent (subs : List SubjectR) (x : SubjectR) :
    addSubject (addSubject subs x) x = addSubject subs x :=
  addSubject_of_mem (self_mem_addSubject subs x)

/-! ## Dispatch-step lemmas -/

theorem safe_min_eq_none {a b : Option τ} :
    safe_min a b = none ↔ a = none ∧ b = none := by
  cases a <;> cases b <;> simp [safe_min]

theorem safe_min_le_left {a b : Option τ} {t : τ}
    (h : ∀ w, safe_min a b = some w → t ≤ w) :
    ∀ u, a = some u → t ≤ u := by
  intro u hu
  subst hu
  cases b with
  | none => exact h u rfl
  | some v => exact le_trans (h (min u v) rfl) (min_le_left u v)

theorem safe_min_le_right {a b : Option τ} {t : τ}
    (h : ∀ w, safe_min a b = some w → t ≤ w) :
    ∀ u, b = some u → t ≤ u := by
  intro u hu
  subst hu
  cases a with
  | none => exact h u rfl
  | some v => exact le_trans (h (min v u) rfl) (min_le_right v u)

theorem safe_min_some_src {a b : Option τ} {t : τ}
    (h : safe_min a b = some t) : a = some t ∨ b = some t := by
  cases a with
  | none => exact Or.inr (by simpa [safe_min] using h)
  | some u =>
    cases b with
    | none => exact Or.inl (by simpa [safe_min] using h)
    | some v =>
      simp only [safe_min, Option.some_inj] at h
      rcases min_choice u v with hm | hm <;> rw [← h, hm]
      · exact Or.inl rfl
      · exact Or.inr rfl

theorem scan_fst (ops : SubjectOps σ τ) :
    ∀ (l : List σ) (b : Bool) (acc : Option τ),
      (l.foldl (scanStep ops) (b, acc)).1 = (b && l.all ops.eof) := by
  intro l
  induction l with
  | nil => simp
  | cons s rest ih =>
    intro b acc
    by_cases hs : ops.eof s
    · simp [scanStep, hs, ih]
    · simp [scanStep, hs, ih]

theorem scan_snd_none (ops : SubjectOps σ τ) :
    ∀ (l : List σ) (b : Bool) (acc : Option τ),
      (l.foldl (scanStep ops) (b, acc)).2 = none ↔
        acc = none ∧
          ∀ s ∈ l, ops.eof s = false → ops.peekDateTime s = none := by
  intro l
  induction l with
  | nil => simp
  | cons s rest ih =>
    intro b acc
    by_cases hs : ops.eof s
    · rw [List.foldl_cons]
      simp only [scanStep, if_pos hs, ih]
      constructor
      · rintro ⟨h1, h2⟩
        refine ⟨h1, ?_⟩
        intro s' hs' he
        rcases List.mem_cons.mp hs' with rfl | hs'
        · rw [hs] at he; cases he
        · exact h2 s' hs' he
      · rintro ⟨h1, h2⟩
        exact ⟨h1, fun s' hs' he => h2 s' (List.mem_cons_of_mem s hs') he⟩
    · rw [List.foldl_cons]
      simp only [scanStep, if_neg hs, ih, safe_min_eq_none]
      constructor
      · rintro ⟨⟨h1, h2⟩, h3⟩
        refine ⟨h1, ?_⟩
        intro s' hs' he
        rcases List.mem_cons.mp hs' with rfl | hs'
        · exact h2
        · exact h3 s' hs' he
      · rintro ⟨h1, h2⟩
        exact ⟨⟨h1, h2 s (List.mem_cons_self s rest)
            (Bool.eq_false_iff.mpr hs)⟩,
          fun s' hs' he => h2 s' (List.mem_cons_of_mem s hs') he⟩

theorem scan_snd_some_src (ops : SubjectOps σ τ) :
    ∀ (l : List σ) (b : Bool) (acc : Option τ) (t : τ),
      (l.foldl (scanStep ops) (b, acc)).2 = some t →
        acc = some t ∨
          ∃ s ∈ l, ops.eof s = false ∧ ops.peekDateTime s = some t := by
  intro l
  induction l with
  | nil =>
    intro b acc t h
    exact Or.inl h
  | cons s rest ih =>
    intro b acc t h
    by_cases hs : ops.eof s
    · rw [List.foldl_cons] at h
      simp only [scanStep, if_pos hs] at h
      rcases ih _ _ _ h with h1 | ⟨s', hs', h2⟩
      · exact Or.inl h1
      · exact Or.inr ⟨s', List.mem_cons_of_mem s hs', h2⟩
    · rw [List.foldl_cons] at h
      simp only [scanStep, if_neg hs] at h
      rcases ih _ _ _ h with h1 | ⟨s', hs', h2⟩
      · rcases safe_min_some_src h1 with h2 | h2
        · exact Or.inl h2
        · exact Or.inr ⟨s, List.mem_cons_self s rest,
            Bool.eq_false_iff.mpr hs, h2⟩
      · exact Or.inr ⟨s', List.mem_cons_of_mem s hs', h2⟩

theorem scan_snd_some_le (ops : SubjectOps σ τ) :
    ∀ (l : List σ) (b : Bool) (acc : Option τ) (t : τ),
      (l.foldl (scanStep ops) (b, acc)).2 = some t →
        (∀ u, acc = some u → t ≤ u) ∧
          ∀ s ∈ l, ops.eof s = false →
            ∀ u, ops.peekDateTime s = some u → t ≤ u := by
  intro l
  induction l with
  | nil =>
    intro b acc t h
    simp only [List.foldl_nil] at h
    refine ⟨?_, by simp⟩
    intro u hu
    rw [h] at hu
    injection hu with hu
    exact le_of_eq hu
  | cons s rest ih =>
    intro b acc t h
    by_cases hs : ops.eof s
    · rw [List.foldl_cons] at h
      simp only [scanStep, if_pos hs] at h
      rcases ih _ _ _ h with ⟨h1, h2⟩
      refine ⟨h1, ?_⟩
      intro s' hs' he
      rcases List.mem_cons.mp hs' with rfl | hs'
      · rw [hs] at he; cases he
      · exact h2 s' hs' he
    · rw [List.foldl_cons] at h
      simp only [scanStep, if_neg hs] at h
      rcases ih _ _ _ h with ⟨h1, h2⟩
      refine ⟨safe_min_le_left h1, ?_⟩
      intro s' hs' he
      rcases List.mem_cons.mp hs' with rfl | hs'
      · exact safe_min_le_right h1
      · exact h2 s' hs' he

theorem dispatchPass_states (ops : SubjectOps σ τ) (t : Option τ) :
    ∀ (l : List σ) (i : Nat),
      (dispatchPass ops t i l).1 =
        l.map fun s =>
          if wouldDispatch ops t s then (ops.dispatch s).1 else s := by
  intro l
  induction l with
  | nil => simp [dispatchPass]
  | cons s rest ih =>
    intro i
    simp only [dispatchPass, dispatchSubject, List.map_cons, ih]
    by_cases hw : wouldDispatch ops t s <;> simp [hw]

theorem dispatchPass_flag (ops : SubjectOps σ τ) (t : Option τ) :
    ∀ (l : List σ) (i : Nat),
      (dispatchPass ops t i l).2.1 =
        l.any fun s => wouldDispatch ops t s && (ops.dispatch s).2 := by
  intro l
  induction l with
  | nil => simp [dispatchPass]
  | cons s rest ih =>
    intro i
    simp only [dispatchPass, dispatchSubject, List.any_cons, ih]
    by_cases hw : wouldDispatch ops t s <;> simp [hw]

theorem dispatchPass_calls (ops : SubjectOps σ τ) (t : Option τ) :
    ∀ (l : List σ) (i : Nat),
      (dispatchPass ops t i l).2.2 =
        ((l.enumFrom i).filter fun p => wouldDispatch ops t p.2).map
          fun p => (p.1, ops.peekDateTime p.2, (ops.dispatch p.2).2) := by
  intro l
  induction l with
  | nil => simp [dispatchPass]
  | cons s rest ih =>
    intro i
    simp only [dispatchPass, dispatchSubject, List.enumFrom_cons,
      List.filter_cons, ih]
    by_cases hw : wouldDispatch ops t s <;> simp [hw]

theorem dispatchPass_exists_call (ops : SubjectOps σ τ) (t : Option τ) :
    ∀ (l : List σ) (i : Nat),
      ((∃ c ∈ (dispatchPass ops t i l).2.2, c.2.2 = true) ↔
        (l.any fun s => wouldDispatch ops t s && (ops.dispatch s).2) = true) := by
  intro l
  induction l with
  | nil => simp [dispatchPass]
  | cons s rest ih =>
    intro i
    simp only [dispatchPass, dispatchSubject, List.any_cons]
    by_cases hw : wouldDispatch ops t s
    · simp [hw, ih (i + 1)]
    · simp [hw, ih (i + 1)]

/-- C5: if at the start of a dispatch step every registered subject is
exhausted, `Dispatcher.__dispatch` returns `(eof, eventsDispatched) =
(true, false)`, performs no `dispatch()` call (the call list is empty and
every subject state, and the whole dispatcher state including
`__currDateTime`, is unchanged). -/
theorem C5_all_exhausted_step (ops : SubjectOps σ τ) (st : DState σ τ)
    (h : st.subjects.all ops.eof = true) :
    dispatchOnce ops st = (st, true, false, []) := by
  unfold dispatchOnce
  rw [if_pos]
  rw [scan_fst]
  simp [h]

/-- Witness for C5 at a concrete input: two exhausted fake subjects and a
set current datetime. -/
theorem C5_all_exhausted_step_witness :
    initC5.subjects.all fakeOps.eof = true ∧
    dispatchOnce fakeOps initC5 = (initC5, true, false, []) :=
  ⟨by decide, C5_all_exhausted_step fakeOps initC5 (by decide)⟩

/-- C1: in a dispatch step in which not all subjects are exhausted,
`Dispatcher.__dispatch` reports `eof = false`, sets `__currDateTime` to
the minimum of the non-`none` peek timestamps of the non-exhausted
subjects (`none` when every live subject peeks `none`), dispatches — in
registry order — exactly the non-exhausted subjects whose peek is that
minimum or `none` (`wouldDispatch` is that guard; in particular a subject
whose peek is strictly above the minimum is not dispatched), and reports
`eventsDispatched = true` iff some dispatched subject's `dispatch()`
returned true. -/
theorem C1_dispatch_step (ops : SubjectOps σ τ) (st : DState σ τ)
    (h : st.subjects.all ops.eof = false) :
    (dispatchOnce ops st).2.1 = false ∧
    IsLiveMin ops st.subjects (dispatchOnce ops st).1.currDateTime ∧
    (dispatchOnce ops st).1.subjects =
      (st.subjects.map fun s =>
        if wouldDispatch ops (dispatchOnce ops st).1.currDateTime s
        then (ops.dispatch s).1 else s) ∧
    (dispatchOnce ops st).2.2.2 =
      ((st.subjects.enum.filter fun p =>
        wouldDispatch ops (dispatchOnce ops st).1.currDateTime p.2).map
        fun p => (p.1, ops.peekDateTime p.2, (ops.dispatch p.2).2)) ∧
    ((dispatchOnce ops st).2.2.1 = true ↔
      ∃ c ∈ (dispatchOnce ops st).2.2.2, c.2.2 = true) := by
  have hscan1 : (st.subjects.foldl (scanStep ops) (true, none)).1 = false := by
    rw [scan_fst]
    simp [h]
  have hd : dispatchOnce ops st =
      ({ st with
          subjects := (dispatchPass ops
            (st.subjects.foldl (scanStep ops) (true, none)).2 0 st.subjects).1,
          currDateTime :=
            (st.subjects.foldl (scanStep ops) (true, none)).2 },
        false,
        (dispatchPass ops (st.subjects.foldl (scanStep ops) (true, none)).2 0
          st.subjects).2.1,
        (dispatchPass ops (st.subjects.foldl (scanStep ops) (true, none)).2 0
          st.subjects).2.2) := by
    unfold dispatchOnce
    rw [if_neg (by simp [hscan1])]
  rw [hd]
  refine ⟨rfl, ?_, ?_, ?_, ?_⟩
  · constructor
    · intro hn s hs he
      exact ((scan_snd_none ops st.subjects true none).mp hn).2 s hs he
    · intro t ht
      constructor
      · rcases scan_snd_some_src ops st.subjects true none t ht with hc | hc
        · cases hc
        · exact hc
      · exact (scan_snd_some_le ops st.subjects true none t ht).2
  · exact dispatchPass_states ops _ st.subjects 0
  · rw [dispatchPass_calls ops _ st.subjects 0]
    rfl
  · rw [dispatchPass_flag ops _ st.subjects 0]
    exact (dispatchPass_exists_call ops _ st.subjects 0).symm

/-- Witness for C1 at a concrete input: the merge scenario's initial
state, whose three subjects are not all exhausted; the step picks
timestamp `1`. -/
theorem C1_dispatch_step_witness :
    initC2.subjects.all fakeOps.eof = false ∧
    (dispatchOnce fakeOps initC2).2.1 = false ∧
    (dispatchOnce fakeOps initC2).1.currDateTime = some 1 ∧
    (dispatchOnce fakeOps initC2).2.2.2 = [(0, some 1, true)] :=
  ⟨by decide, (C1_dispatch_step fakeOps initC2 (by decide)).1, by decide,
    by decide⟩

/-! ## Run-loop lemmas -/

theorem runLoop_stop (ops : SubjectOps σ τ) (fuel : Nat) (st : DState σ τ)
    (h : st.stopFlag = true) : runLoop ops fuel st = ([], st, true) := by
  cases fuel with
  | zero => simp [runLoop, h]
  | succ fuel => simp [runLoop, h]

theorem runLoop_finished_stable (ops : SubjectOps σ τ) :
    ∀ (fuel : Nat) (st : DState σ τ), (runLoop ops fuel st).2.2 = true →
      ∀ extra : Nat, runLoop ops (fuel + extra) st = runLoop ops fuel st := by
  intro fuel
  induction fuel with
  | zero =>
    intro st h extra
    simp only [runLoop] at h
    rw [runLoop_stop ops _ st h]
    simp [runLoop, h]
  | succ fuel ih =>
    intro st h extra
    by_cases hs : st.stopFlag = true
    · rw [runLoop_stop ops _ st hs, runLoop_stop ops _ st hs]
    · have hs' : st.stopFlag = false := Bool.eq_false_iff.mpr hs
      have hrw : fuel + 1 + extra = (fuel + extra) + 1 := by omega
      rw [hrw]
      simp only [runLoop, hs', Bool.false_eq_true, if_false] at h ⊢
      rw [ih _ (by simpa using h)]

theorem dispatchOnce_length (ops : SubjectOps σ τ) (st : DState σ τ) :
    (dispatchOnce ops st).1.subjects.length = st.subjects.length := by
  unfold dispatchOnce
  by_cases hs : (st.subjects.foldl (scanStep ops) (true, none)).1 = true
  · simp [hs]
  · have hs' := Bool.eq_false_iff.mpr (fun hc => hs hc)
    simp [hs', dispatchPass_states]

theorem runLoop_length (ops : SubjectOps σ τ) :
    ∀ (fuel : Nat) (st : DState σ τ),
      (runLoop ops fuel st).2.1.subjects.length = st.subjects.length := by
  intro fuel
  induction fuel with
  | zero => intro st; rfl
  | succ fuel ih =>
    intro st
    by_cases hs : st.stopFlag = true
    · rw [runLoop_stop ops _ st hs]
    · have hs' : st.stopFlag = false := Bool.eq_false_iff.mpr hs
      simp only [runLoop, hs', Bool.false_eq_true, if_false]
      by_cases he : (dispatchOnce ops st).2.1 = true
      · simp only [he, if_true]
        rw [ih]
        exact dispatchOnce_length ops st
      · have he' : (dispatchOnce ops st).2.1 = false :=
          Bool.eq_false_iff.mpr he
        simp only [he', Bool.false_eq_true, if_false]
        rw [ih]
        exact dispatchOnce_length ops st

theorem runLoop_finished_stopFlag (ops : SubjectOps σ τ) :
    ∀ (fuel : Nat) (st : DState σ τ), (runLoop ops fuel st).2.2 = true →
      (runLoop ops fuel st).2.1.stopFlag = true := by
  intro fuel
  induction fuel with
  | zero =>
    intro st h
    simpa [runLoop] using h
  | succ fuel ih =>
    intro st h
    by_cases hs : st.stopFlag = true
    · rw [runLoop_stop ops _ st hs]
      exact hs
    · have hs' : st.stopFlag = false := Bool.eq_false_iff.mpr hs
      simp only [runLoop, hs', Bool.false_eq_true, if_false] at h ⊢
      exact ih _ (by simpa using h)

theorem run_fuel_stable (ops : SubjectOps σ τ) (fuel extra : Nat)
    (st : DState σ τ)
    (h : (runLoop ops fuel
      { st with subjects := st.subjects.map ops.start }).2.2 = true) :
    run ops (fuel + extra) st = run ops fuel st := by
  simp only [run]
  rw [runLoop_finished_stable ops fuel _ h extra]

/-- C10: if `stop()` was called before `run()`, the run still starts every
registered subject in registry order and emits the start signal once,
performs no dispatch step and emits no idle signal (the trace holds
nothing between the start signal and teardown), and then stops and joins
every registered subject before returning. -/
theorem C10_stop_before_run (ops : SubjectOps σ τ) (st : DState σ τ)
    (fuel : Nat) :
    run ops fuel { st with stopFlag := true } =
      ((List.range st.subjects.length).map RunEvent.started ++
        [RunEvent.startSignal] ++
        (List.range st.subjects.length).map RunEvent.stopCall ++
        (List.range st.subjects.length).map RunEvent.joinCall,
       { subjects := ((st.subjects.map ops.start).map ops.stop).map ops.join,
         currDateTime := none, stopFlag := true }, true) := by
  simp only [run]
  rw [runLoop_stop ops fuel _ rfl]
  simp

/-- C2: the merge-correctness scenario.  With subjects `[1,3,5]`, `[2,3]`
and `[]` (exhausted from the start), any sufficiently fuelled run produces
exactly the trace whose delivered timestamps are `1, 2, 3, 3, 5`, with the
two events at `3` dispatched by one step, and the loop finishes (the
terminal all-exhausted step sets the stop flag, independent of remaining
fuel); moreover three equal-priority registrations keep insertion order,
so the scenario's registry order is the insertion order. -/
theorem C2_merge_correctness :
    (∀ extra : Nat,
      run fakeOps (6 + extra) initC2 =
        ([RunEvent.started 0, RunEvent.started 1, RunEvent.started 2,
          RunEvent.startSignal,
          RunEvent.step false true (some 1) [(0, some 1, true)],
          RunEvent.step false true (some 2) [(1, some 2, true)],
          RunEvent.step false true (some 3)
            [(0, some 3, true), (1, some 3, true)],
          RunEvent.step false true (some 5) [(0, some 5, true)],
          RunEvent.step true false (some 5) [],
          RunEvent.stopCall 0, RunEvent.stopCall 1, RunEvent.stopCall 2,
          RunEvent.joinCall 0, RunEvent.joinCall 1, RunEvent.joinCall 2],
         { subjects := [[], [], []], currDateTime := none,
           stopFlag := true }, true)) ∧
    dispatchedTs (run fakeOps 6 initC2).1 = [1, 2, 3, 3, 5] ∧
    addAll [⟨0, some 100⟩, ⟨1, some 100⟩, ⟨2, some 100⟩] =
      [⟨0, some 100⟩, ⟨1, some 100⟩, ⟨2, some 100⟩] := by
  refine ⟨?_, by decide, by decide⟩
  intro extra
  rw [run_fuel_stable fakeOps 6 extra initC2 (by decide)]
  decide

/-- C8 (amended): after any `run` the dispatcher's `__currDateTime` is
`none` again, but the stop flag is NOT reset — when the loop finished (by
exhaustion or a stop request) the flag stays set, so a subsequent `run`
on the same dispatcher performs no dispatch step at all. -/
theorem C8_post_run_state (ops : SubjectOps σ τ) (fuel : Nat)
    (st : DState σ τ) :
    (run ops fuel st).2.1.currDateTime = none ∧
    ((run ops fuel st).2.2 = true → (run ops fuel st).2.1.stopFlag = true) ∧
    ((run ops fuel st).2.2 = true → ∀ fuel2 : Nat,
      (run ops fuel2 (run ops fuel st).2.1).1.filter isStep = []) := by
  refine ⟨by simp only [run], ?_, ?_⟩
  · intro hfin
    simp only [run] at hfin ⊢
    exact runLoop_finished_stopFlag ops fuel _ hfin
  · intro hfin fuel2
    have hstop : (run ops fuel st).2.1.stopFlag = true := by
      simp only [run] at hfin ⊢
      exact runLoop_finished_stopFlag ops fuel _ hfin
    generalize hq : (run ops fuel st).2.1 = q at hstop
    simp only [run]
    rw [runLoop_stop ops fuel2 _ (by simpa using hstop)]
    rw [List.filter_eq_nil_iff]
    intro e he
    simp only [List.append_nil, List.mem_append, List.mem_map,
      List.mem_range] at he
    rcases he with ((⟨i, _, rfl⟩ | he) | ⟨i, _, rfl⟩) | ⟨i, _, rfl⟩
    · simp [isStep]
    · rcases List.mem_singleton.mp he with rfl
      simp [isStep]
    · simp [isStep]
    · simp [isStep]

/-- C8 as stated fails on the code: after a first full run of a dispatcher
with one single-event subject the loop finished and the stop flag is
still set (not reset), and a second `run` on the same dispatcher performs
zero dispatch steps instead of re-entering the dispatch loop. -/
theorem C8_counterexample :
    (run fakeOps 3 initC8).2.2 = true ∧
    (run fakeOps 3 initC8).2.1.stopFlag = true ∧
    (run fakeOps 3 (run fakeOps 3 initC8).2.1).1.filter isStep = [] := by
  decide

/-! ## Idle-signal lemmas -/

theorem idleOk_skip_cons (e : RunEvent τ) (l : List (RunEvent τ))
    (hstep : isStep e = false) (hidle : e ≠ RunEvent.idleSignal) :
    idleOk (e :: l) = idleOk l := by
  cases e with
  | started i => rfl
  | startSignal => rfl
  | stopCall i => rfl
  | joinCall i => rfl
  | idleSignal => exact absurd rfl hidle
  | step e a ct cs => simp [isStep] at hstep

theorem idleOk_skip_front (l : List (RunEvent τ)) :
    ∀ pre : List (RunEvent τ),
      (∀ e ∈ pre, isStep e = false ∧ e ≠ RunEvent.idleSignal) →
      idleOk (pre ++ l) = idleOk l := by
  intro pre
  induction pre with
  | nil => intro _; rfl
  | cons e rest ih =>
    intro h
    rcases h e (List.mem_cons_self e rest) with ⟨h1, h2⟩
    rw [List.cons_append, idleOk_skip_cons e _ h1 h2]
    exact ih fun e' he' => h e' (List.mem_cons_of_mem e he')

theorem idleOk_of_skippable (l : List (RunEvent τ))
    (h : ∀ e ∈ l, isStep e = false ∧ e ≠ RunEvent.idleSignal) :
    idleOk l = true := by
  have hp := idleOk_skip_front [] l h
  simpa using hp

theorem noIdleHead_of_all (l : List (RunEvent τ))
    (h : ∀ e ∈ l, e ≠ RunEvent.idleSignal) : noIdleHead l = true := by
  cases l with
  | nil => rfl
  | cons e rest =>
    cases e with
    | idleSignal => exact absurd rfl (h _ (List.mem_cons_self _ _))
    | started i => rfl
    | startSignal => rfl
    | stopCall i => rfl
    | joinCall i => rfl
    | step e a ct cs => rfl

theorem idleOk_step_idle (e a : Bool) (ct : Option τ)
    (cs : List (Nat × Option τ × Bool)) (l : List (RunEvent τ)) :
    idleOk (RunEvent.step e a ct cs :: RunEvent.idleSignal :: l) =
      ((!e && !a) && idleOk l) := rfl

theorem idleOk_step_noidle (e a : Bool) (ct : Option τ)
    (cs : List (Nat × Option τ × Bool)) (l : List (RunEvent τ))
    (hl : noIdleHead l = true) (hea : (e || a) = true) :
    idleOk (RunEvent.step e a ct cs :: l) = idleOk l := by
  cases l with
  | nil => simp [idleOk, hea]
  | cons hd tl =>
    cases hd with
    | idleSignal => simp [noIdleHead] at hl
    | started i => simp [idleOk, hea]
    | startSignal => simp [idleOk, hea]
    | stopCall i => simp [idleOk, hea]
    | joinCall i => simp [idleOk, hea]
    | step e' a' ct' cs' => simp [idleOk, hea]

theorem idleOk_runLoop (ops : SubjectOps σ τ) :
    ∀ (fuel : Nat) (st : DState σ τ) (rest : List (RunEvent τ)),
      idleOk rest = true → noIdleHead rest = true →
      idleOk ((runLoop ops fuel st).1 ++ rest) = true ∧
      noIdleHead ((runLoop ops fuel st).1 ++ rest) = true := by
  intro fuel
  induction fuel with
  | zero =>
    intro st rest h1 h2
    exact ⟨h1, h2⟩
  | succ fuel ih =>
    intro st rest h1 h2
    by_cases hs : st.stopFlag = true
    · rw [runLoop_stop ops _ st hs]
      exact ⟨h1, h2⟩
    · have hs' : st.stopFlag = false := Bool.eq_false_iff.mpr hs
      simp only [runLoop, hs', Bool.false_eq_true, if_false]
      by_cases he : (dispatchOnce ops st).2.1 = true
      · simp only [he, Bool.not_true, Bool.false_and, Bool.false_eq_true,
          if_false, if_true, List.append_nil, List.cons_append,
          List.nil_append]
        rcases ih { (dispatchOnce ops st).1 with stopFlag := true } rest
          h1 h2 with ⟨hrec1, hrec2⟩
        constructor
        · rw [idleOk_step_noidle _ _ _ _ _ hrec2 (by simp [he])]
          exact hrec1
        · rfl
      · have he' : (dispatchOnce ops st).2.1 = false :=
          Bool.eq_false_iff.mpr he
        rcases ih (dispatchOnce ops st).1 rest h1 h2 with ⟨hrec1, hrec2⟩
        by_cases ha : (dispatchOnce ops st).2.2.1 = true
        · simp only [he', ha, Bool.not_true, Bool.and_false,
            Bool.false_eq_true, if_false, List.append_nil,
            List.cons_append, List.nil_append]
          constructor
          · rw [idleOk_step_noidle _ _ _ _ _ hrec2 (by simp [ha])]
            exact hrec1
          · rfl
        · have ha' : (dispatchOnce ops st).2.2.1 = false :=
            Bool.eq_false_iff.mpr ha
          simp only [he', ha', Bool.not_false, Bool.and_self, if_true,
            List.cons_append, List.singleton_append]
          constructor
          · rw [idleOk_step_idle]
            simp only [Bool.not_false, Bool.and_self, Bool.true_and]
            exact hrec1
          · rfl

/-- C6: in every `run` trace the idle signal fires exactly once after
each dispatch step that returned `(allExhausted, anyDispatched) = (false,
false)`, never after the terminal all-exhausted step, and never after a
step that dispatched something (`idleOk` is that discipline). -/
theorem C6_idle_signal_discipline (ops : SubjectOps σ τ) (fuel : Nat)
    (st : DState σ τ) : idleOk (run ops fuel st).1 = true := by
  simp only [run]
  rw [List.append_assoc, List.append_assoc, List.append_assoc,
    ← List.append_assoc (List.map RunEvent.started (List.range st.subjects.length))]
  rw [idleOk_skip_front _ _ ?hpre]
  case hpre =>
    intro e he
    simp only [List.mem_append, List.mem_map, List.mem_range,
      List.mem_singleton] at he
    rcases he with ⟨i, _, rfl⟩ | rfl
    · exact ⟨rfl, by intro hc; cases hc⟩
    · exact ⟨rfl, by intro hc; cases hc⟩
  refine (idleOk_runLoop ops fuel _ _ (idleOk_of_skippable _ ?hall)
    (noIdleHead_of_all _ ?hnid)).1
  case hall =>
    intro e he
    simp only [List.mem_append, List.mem_map, List.mem_range] at he
    rcases he with ⟨i, _, rfl⟩ | ⟨i, _, rfl⟩
    · exact ⟨rfl, by intro hc; cases hc⟩
    · exact ⟨rfl, by intro hc; cases hc⟩
  case hnid =>
    intro e he
    simp only [List.mem_append, List.mem_map, List.mem_range] at he
    rcases he with ⟨i, _, rfl⟩ | ⟨i, _, rfl⟩
    · intro hc; cases hc
    · intro hc; cases hc

/-! ## Monotonic-time lemmas -/

theorem dispatchOnce_eofAll (ops : SubjectOps σ τ) (st : DState σ τ)
    (hscan : (st.subjects.foldl (scanStep ops) (true, none)).1 = true) :
    dispatchOnce ops st = (st, true, false, []) := by
  unfold dispatchOnce
  rw [if_pos hscan]

theorem dispatchOnce_live (ops : SubjectOps σ τ) (st : DState σ τ)
    (hscan : (st.subjects.foldl (scanStep ops) (true, none)).1 = false) :
    dispatchOnce ops st =
      ({ st with
          subjects := (dispatchPass ops
            (st.subjects.foldl (scanStep ops) (true, none)).2 0 st.subjects).1,
          currDateTime := (st.subjects.foldl (scanStep ops) (true, none)).2 },
        false,
        (dispatchPass ops (st.subjects.foldl (scanStep ops) (true, none)).2 0
          st.subjects).2.1,
        (dispatchPass ops (st.subjects.foldl (scanStep ops) (true, none)).2 0
          st.subjects).2.2) := by
  unfold dispatchOnce
  rw [if_neg (by simp [hscan])]

theorem eof_false_of_wouldDispatch {ops : SubjectOps σ τ} {t : Option τ}
    {s : σ} (hw : wouldDispatch ops t s = true) : ops.eof s = false := by
  unfold wouldDispatch at hw
  cases he : ops.eof s
  · rfl
  · rw [he] at hw
    simp at hw

theorem peek_eq_of_wouldDispatch {ops : SubjectOps σ τ} {t : Option τ}
    {s : σ} {u : τ} (hw : wouldDispatch ops t s = true)
    (hu : ops.peekDateTime s = some u) : t = some u := by
  unfold wouldDispatch at hw
  rw [hu] at hw
  simp only [Bool.and_eq_true, Bool.or_eq_true, decide_eq_true_eq] at hw
  rcases hw.2 with hc | hc
  · cases hc
  · exact hc.symm

theorem observedTimes_append (a b : List (RunEvent τ)) :
    observedTimes (a ++ b) = observedTimes a ++ observedTimes b := by
  simp [observedTimes]

theorem observedTimes_step_none (e a : Bool)
    (cs : List (Nat × Option τ × Bool)) (l : List (RunEvent τ)) :
    observedTimes (RunEvent.step e a none cs :: l) = observedTimes l := by
  simp [observedTimes]

theorem observedTimes_step_some (e a : Bool) (t : τ)
    (cs : List (Nat × Option τ × Bool)) (l : List (RunEvent τ)) :
    observedTimes (RunEvent.step e a (some t) cs :: l) =
      t :: observedTimes l := by
  simp [observedTimes]

theorem observedTimes_idle (l : List (RunEvent τ)) :
    observedTimes (RunEvent.idleSignal :: l) = observedTimes l := by
  simp [observedTimes]

theorem allRealtime_map (ops : SubjectOps σ τ) (h : TimeOrdered ops)
    (t : Option τ) (l : List σ)
    (hrt : ∀ s ∈ l, ops.eof s = false → ops.peekDateTime s = none) :
    ∀ s' ∈ (l.map fun s =>
        if wouldDispatch ops t s then (ops.dispatch s).1 else s),
      ops.eof s' = false → ops.peekDateTime s' = none := by
  intro s' hs' he'
  rcases List.mem_map.mp hs' with ⟨s, hs, rfl⟩
  by_cases hw : wouldDispatch ops t s
  · rw [if_pos hw]
    exact (h s).2 (hrt s hs (eof_false_of_wouldDispatch hw))
  · rw [if_neg hw] at he' ⊢
    exact hrt s hs he'

theorem runLoop_allRealtime (ops : SubjectOps σ τ) (h : TimeOrdered ops) :
    ∀ (fuel : Nat) (st : DState σ τ), st.currDateTime = none →
      (∀ s ∈ st.subjects, ops.eof s = false → ops.peekDateTime s = none) →
      observedTimes (runLoop ops fuel st).1 = [] := by
  intro fuel
  induction fuel with
  | zero => intro st _ _; rfl
  | succ fuel ih =>
    intro st hc hrt
    by_cases hs : st.stopFlag = true
    · rw [runLoop_stop ops _ st hs]
      rfl
    · have hs' : st.stopFlag = false := Bool.eq_false_iff.mpr hs
      simp only [runLoop, hs', Bool.false_eq_true, if_false]
      have hsc : (st.subjects.foldl (scanStep ops) (true, none)).2 = none :=
        (scan_snd_none ops st.subjects true none).mpr ⟨rfl, hrt⟩
      by_cases he : (st.subjects.foldl (scanStep ops) (true, none)).1 = true
      · rw [dispatchOnce_eofAll ops st he]
        rw [runLoop_stop ops fuel _ rfl]
        simp [observedTimes, hc]
      · have he' : (st.subjects.foldl (scanStep ops) (true, none)).1 = false :=
          Bool.eq_false_iff.mpr he
        rw [dispatchOnce_live ops st he']
        simp only [Bool.false_eq_true, if_false]
        have hrec : observedTimes (runLoop ops fuel
            { st with
              subjects := (dispatchPass ops
                (st.subjects.foldl (scanStep ops) (true, none)).2 0
                st.subjects).1,
              currDateTime :=
                (st.subjects.foldl (scanStep ops) (true, none)).2 }).1 = [] := by
          apply ih
          · exact hsc
          · rw [dispatchPass_states]
            exact allRealtime_map ops h _ _ hrt
        rw [hsc] at hrec ⊢
        by_cases ha : (dispatchPass ops
            (st.subjects.foldl (scanStep ops) (true, none)).2 0
            st.subjects).2.1 = true
        · rw [hsc] at ha
          simp only [ha, Bool.not_true, Bool.and_false, Bool.false_eq_true,
            if_false, List.append_nil, List.nil_append,
            List.singleton_append]
          rw [observedTimes_step_none, hrec]
        · rw [hsc] at ha
          have ha' := Bool.eq_false_iff.mpr ha
          simp only [ha', Bool.not_false, Bool.and_self, if_true,
            List.cons_append, List.singleton_append]
          rw [observedTimes_step_none, observedTimes_idle, List.nil_append, hrec]

theorem liveLB_step (ops : SubjectOps σ τ) (h : TimeOrdered ops)
    (l : List σ) (t' : τ)
    (hmin : (l.foldl (scanStep ops) (true, none)).2 = some t') :
    LiveLB ops t' (l.map fun s =>
      if wouldDispatch ops (some t') s then (ops.dispatch s).1 else s) := by
  intro s' hs' he' u hu
  rcases List.mem_map.mp hs' with ⟨s, hs, rfl⟩
  by_cases hw : wouldDispatch ops (some t') s
  · rw [if_pos hw] at hu
    cases hp : ops.peekDateTime s with
    | none =>
      rw [(h s).2 hp] at hu
      cases hu
    | some w =>
      have hts : (some t' : Option τ) = some w :=
        peek_eq_of_wouldDispatch hw hp
      injection hts with hts
      subst hts
      exact (h s).1 t' u hp hu
  · rw [if_neg hw] at he' hu
    exact (scan_snd_some_le ops l true none t' hmin).2 s hs he' u hu

theorem runLoop_observed_sorted (ops : SubjectOps σ τ)
    (h : TimeOrdered ops) :
    ∀ (fuel : Nat) (st : DState σ τ),
      (∀ t, st.currDateTime = some t → LiveLB ops t st.subjects) →
      List.Pairwise (fun a b => a ≤ b)
        (st.currDateTime.toList ++ observedTimes (runLoop ops fuel st).1) := by
  intro fuel
  induction fuel with
  | zero =>
    intro st _
    cases hc : st.currDateTime <;> simp [runLoop, observedTimes]
  | succ fuel ih =>
    intro st hinv
    by_cases hs : st.stopFlag = true
    · rw [runLoop_stop ops _ st hs]
      cases hc : st.currDateTime <;> simp [observedTimes]
    · have hs' : st.stopFlag = false := Bool.eq_false_iff.mpr hs
      simp only [runLoop, hs', Bool.false_eq_true, if_false]
      by_cases he : (st.subjects.foldl (scanStep ops) (true, none)).1 = true
      · rw [dispatchOnce_eofAll ops st he]
        rw [runLoop_stop ops fuel _ rfl]
        cases hc : st.currDateTime with
        | none => simp [observedTimes]
        | some t => simp [observedTimes, List.pairwise_cons]
      · have he' : (st.subjects.foldl (scanStep ops) (true, none)).1 = false :=
          Bool.eq_false_iff.mpr he
        rw [dispatchOnce_live ops st he']
        simp only [Bool.false_eq_true, if_false]
        cases hsc : (st.subjects.foldl (scanStep ops) (true, none)).2 with
        | none =>
          have hrt := ((scan_snd_none ops st.subjects true none).mp hsc).2
          have hrec : observedTimes (runLoop ops fuel
              { st with
                subjects := (dispatchPass ops
                  (none : Option τ) 0 st.subjects).1,
                currDateTime := (none : Option τ) }).1 = [] := by
            apply runLoop_allRealtime ops h
            · rfl
            · rw [dispatchPass_states]
              exact allRealtime_map ops h _ _ hrt
          by_cases ha : (dispatchPass ops (none : Option τ) 0
              st.subjects).2.1 = true
          · simp only [ha, Bool.not_true, Bool.and_false, Bool.false_eq_true,
              if_false, List.append_nil, List.nil_append,
              List.singleton_append]
            rw [observedTimes_step_none, hrec]
            cases hc : st.currDateTime <;> simp
          · have ha' := Bool.eq_false_iff.mpr ha
            simp only [ha', Bool.not_false, Bool.and_self, if_true,
              List.cons_append, List.singleton_append]
            rw [observedTimes_step_none, observedTimes_idle, List.nil_append, hrec]
            cases hc : st.currDateTime <;> simp
        | some t' =>
          have hinv' : ∀ t, ({ st with
              subjects := (dispatchPass ops (some t') 0 st.subjects).1,
              currDateTime := (some t' : Option τ) }).currDateTime = some t →
              LiveLB ops t ({ st with
                subjects := (dispatchPass ops (some t') 0 st.subjects).1,
                currDateTime := (some t' : Option τ) }).subjects := by
            intro t ht
            have htt : t' = t := by
              simpa using ht
            subst htt
            show LiveLB ops t' (dispatchPass ops (some t') 0 st.subjects).1
            rw [dispatchPass_states]
            exact liveLB_step ops h st.subjects t' hsc
          have ihh := ih ({ st with
              subjects := (dispatchPass ops (some t') 0 st.subjects).1,
              currDateTime := (some t' : Option τ) }) hinv'
          simp only [Option.toList_some] at ihh
          have hfirst : ∀ t, st.currDateTime = some t → t ≤ t' := by
            intro t ht
            rcases scan_snd_some_src ops st.subjects true none t' hsc with
              hcon | ⟨s, hss, hlive, hpk⟩
            · cases hcon
            · exact hinv t ht s hss hlive t' hpk
          by_cases ha : (dispatchPass ops (some t') 0
              st.subjects).2.1 = true
          · simp only [ha, Bool.not_true, Bool.and_false, Bool.false_eq_true,
              if_false, List.append_nil, List.nil_append,
              List.singleton_append]
            rw [observedTimes_step_some]
            cases hc : st.currDateTime with
            | none => simpa using ihh
            | some t =>
              simp only [Option.toList_some, List.cons_append,
                List.nil_append, List.singleton_append]
              rw [List.pairwise_cons]
              refine ⟨?_, by simpa using ihh⟩
              intro b hb
              rcases List.mem_cons.mp hb with rfl | hb
              · exact hfirst t hc
              · have hb' := (List.pairwise_cons.mp (by simpa using ihh)).1 b hb
                exact le_trans (hfirst t hc) hb'
          · have ha' := Bool.eq_false_iff.mpr ha
            simp only [ha', Bool.not_false, Bool.and_self, if_true,
              List.cons_append, List.singleton_append]
            rw [observedTimes_step_some, observedTimes_idle]
            cases hc : st.currDateTime with
            | none => simpa using ihh
            | some t =>
              simp only [Option.toList_some, List.cons_append,
                List.nil_append, List.singleton_append]
              rw [List.pairwise_cons]
              refine ⟨?_, by simpa using ihh⟩
              intro b hb
              rcases List.mem_cons.mp hb with rfl | hb
              · exact hfirst t hc
              · have hb' := (List.pairwise_cons.mp (by simpa using ihh)).1 b hb
                exact le_trans (hfirst t hc) hb'

theorem observedTimes_map_started (l : List Nat) :
    observedTimes (l.map RunEvent.started : List (RunEvent τ)) = [] := by
  induction l with
  | nil => rfl
  | cons i rest ih => simp [observedTimes, ih]

theorem observedTimes_map_stopCall (l : List Nat) :
    observedTimes (l.map RunEvent.stopCall : List (RunEvent τ)) = [] := by
  induction l with
  | nil => rfl
  | cons i rest ih => simp [observedTimes, ih]

theorem observedTimes_map_joinCall (l : List Nat) :
    observedTimes (l.map RunEvent.joinCall : List (RunEvent τ)) = [] := by
  induction l with
  | nil => rfl
  | cons i rest ih => simp [observedTimes, ih]

/-- C7: for every run whose subjects behave as time-ordered sources
(`TimeOrdered`: a dispatch never lowers the pending timestamp below the
dispatched event's timestamp, and a realtime subject stays realtime) and
that begins, as every `run` does, with `__currDateTime = None`, the
non-`none` values taken by `__currDateTime` at the dispatch steps are
monotonically non-decreasing: every observed value is ≥ every earlier
one. -/
theorem C7_monotonic_currDateTime (ops : SubjectOps σ τ) (fuel : Nat)
    (st : DState σ τ) (h : TimeOrdered ops)
    (hc : st.currDateTime = none) :
    List.Pairwise (fun a b => a ≤ b) (observedTimes (run ops fuel st).1) := by
  simp only [run]
  rw [observedTimes_append, observedTimes_append, observedTimes_append,
    observedTimes_append, observedTimes_map_started,
    observedTimes_map_stopCall, observedTimes_map_joinCall]
  have hobs : observedTimes ([RunEvent.startSignal] : List (RunEvent τ)) = [] :=
    rfl
  rw [hobs]
  simp only [List.nil_append, List.append_nil]
  have hmain := runLoop_observed_sorted ops h fuel
    { st with subjects := st.subjects.map ops.start }
    (by intro t ht; rw [show ({ st with
        subjects := st.subjects.map ops.start } : DState σ τ).currDateTime =
        st.currDateTime from rfl, hc] at ht; cases ht)
  rw [show ({ st with subjects := st.subjects.map ops.start } :
      DState σ τ).currDateTime = st.currDateTime from rfl, hc] at hmain
  rw [hc]
  simpa using hmain

/-- Witness for C7 at a concrete input: two finite time-ordered subjects
starting at timestamps 0 and 2; the hypothesis holds for every state of
`finOps` and the run observes the times 0, 1, 2 (then 2 again at the
terminal step). -/
theorem C7_monotonic_currDateTime_witness :
    TimeOrdered finOps ∧ initC7.currDateTime = none ∧
    List.Pairwise (fun a b => a ≤ b)
      (observedTimes (run finOps 8 initC7).1) := by
  have htord : TimeOrdered finOps := by
    intro s
    constructor
    · intro u v hu hv
      have hs := s.isLt
      simp only [finOps] at hu hv
      injection hu with hu
      injection hv with hv
      omega
    · intro hnone
      simp [finOps] at hnone
  exact ⟨htord, rfl,
    C7_monotonic_currDateTime finOps 8 initC7 htord rfl⟩

/-! ## Teardown lemmas for the failing-subject model -/

theorem startAllE_length (ops : SubjectOpsE σ τ ε) :
    ∀ (l : List σ) (i : Nat), (startAllE ops i l).1.length = l.length := by
  intro l
  induction l with
  | nil => intro i; rfl
  | cons s rest ih =>
    intro i
    cases hs : ops.start s with
    | error e => simp [startAllE, hs]
    | ok s' => simp [startAllE, hs, ih]

theorem dispatchPassE_length (ops : SubjectOpsE σ τ ε) (t : Option τ) :
    ∀ l : List σ, (dispatchPassE ops t l).1.length = l.length := by
  intro l
  induction l with
  | nil => rfl
  | cons s rest ih =>
    cases herr : (dispatchSubjectE ops s t).2 with
    | some e => simp [dispatchPassE, herr]
    | none => simp [dispatchPassE, herr, ih]

theorem dispatchOnceE_length (ops : SubjectOpsE σ τ ε) (st : DState σ τ) :
    (dispatchOnceE ops st).1.subjects.length = st.subjects.length := by
  unfold dispatchOnceE
  cases herr : (scanE ops st.subjects (true, none)).2 with
  | some e => simp [herr]
  | none =>
    by_cases he : (scanE ops st.subjects (true, none)).1.1 = true
    · simp [herr, he]
    · have he' := Bool.eq_false_iff.mpr he
      simp [herr, he', dispatchPassE_length]

theorem runLoopE_length (ops : SubjectOpsE σ τ ε) :
    ∀ (fuel : Nat) (st : DState σ τ),
      (runLoopE ops fuel st).2.1.subjects.length = st.subjects.length := by
  intro fuel
  induction fuel with
  | zero => intro st; rfl
  | succ fuel ih =>
    intro st
    by_cases hs : st.stopFlag = true
    · simp [runLoopE, hs]
    · have hs' := Bool.eq_false_iff.mpr hs
      simp only [runLoopE, hs', Bool.false_eq_true, if_false]
      cases herr : (dispatchOnceE ops st).2.2.2 with
      | some e =>
        simpa using dispatchOnceE_length ops st
      | none =>
        by_cases he : (dispatchOnceE ops st).2.1 = true
        · simp only [he, if_true]
          rw [ih]
          exact dispatchOnceE_length ops st
        · have he' := Bool.eq_false_iff.mpr he
          simp only [he', Bool.false_eq_true, if_false]
          rw [ih]
          exact dispatchOnceE_length ops st

theorem startAllE_events (ops : SubjectOpsE σ τ ε) :
    ∀ (l : List σ) (i : Nat), ∀ e ∈ (startAllE ops i l).2.1,
      ∃ j, e = RunEvent.started j := by
  intro l
  induction l with
  | nil => intro i e he; cases he
  | cons s rest ih =>
    intro i e he
    cases hs : ops.start s with
    | error err =>
      rw [startAllE, hs] at he
      cases he
    | ok s' =>
      rw [startAllE, hs] at he
      rcases List.mem_cons.mp he with rfl | he
      · exact ⟨i, rfl⟩
      · exact ih (i + 1) e he

theorem runLoopE_events (ops : SubjectOpsE σ τ ε) :
    ∀ (fuel : Nat) (st : DState σ τ), ∀ e ∈ (runLoopE ops fuel st).1,
      (∃ eb ab ct cs, e = RunEvent.step eb ab ct cs) ∨
        e = RunEvent.idleSignal := by
  intro fuel
  induction fuel with
  | zero => intro st e he; cases he
  | succ fuel ih =>
    intro st e he
    by_cases hs : st.stopFlag = true
    · rw [runLoopE, if_pos hs] at he
      cases he
    · have hs' := Bool.eq_false_iff.mpr hs
      simp only [runLoopE, hs', Bool.false_eq_true, if_false] at he
      cases herr : (dispatchOnceE ops st).2.2.2 with
      | some err =>
        simp only [herr] at he
        exact absurd he (List.not_mem_nil e)
      | none =>
        simp only [herr, List.cons_append, List.mem_cons] at he
        rcases he with rfl | he
        · exact Or.inl ⟨_, _, _, _, rfl⟩
        · rcases List.mem_append.mp he with he | he
          · by_cases hq : (!(dispatchOnceE ops st).2.1 &&
                !(dispatchOnceE ops st).2.2.1) = true
            · rw [if_pos hq] at he
              rcases List.mem_singleton.mp he with rfl
              exact Or.inr rfl
            · rw [if_neg hq] at he
              cases he
          · exact ih _ e he

/-- C4: whatever exceptions the subjects raise during the running phase
(in `start`, `eof`, `peekDateTime` or `dispatch`, at any point), `run`
returns normally — `runE` is a total function, the `except` clause
swallows the fault — and its trace still ends with a `stop()` call for
every registered subject, in registry order, followed by a `join()` call
for every registered subject; nothing before that teardown suffix is a
stop or join call. -/
theorem C4_teardown_always_runs (ops : SubjectOpsE σ τ ε) (fuel : Nat)
    (st : DState σ τ) :
    ∃ pre : List (RunEvent τ),
      (runE ops fuel st).1 =
        pre ++ ((List.range st.subjects.length).map RunEvent.stopCall ++
          (List.range st.subjects.length).map RunEvent.joinCall) ∧
      ∀ e ∈ pre, (∀ i, e ≠ RunEvent.stopCall i) ∧
        (∀ i, e ≠ RunEvent.joinCall i) := by
  simp only [runE]
  cases herr : (startAllE ops 0 st.subjects).2.2 with
  | some err =>
    refine ⟨(startAllE ops 0 st.subjects).2.1, ?_, ?_⟩
    · rw [show ({ st with subjects := (startAllE ops 0 st.subjects).1 } :
          DState σ τ).subjects = (startAllE ops 0 st.subjects).1 from rfl,
        startAllE_length, List.append_assoc]
    · intro e he
      rcases startAllE_events ops st.subjects 0 e he with ⟨j, rfl⟩
      exact ⟨fun i hc => RunEvent.noConfusion hc, fun i hc => RunEvent.noConfusion hc⟩
  | none =>
    refine ⟨(startAllE ops 0 st.subjects).2.1 ++ [RunEvent.startSignal] ++
      (runLoopE ops fuel
        { st with subjects := (startAllE ops 0 st.subjects).1 }).1, ?_, ?_⟩
    · rw [runLoopE_length,
        show ({ st with subjects := (startAllE ops 0 st.subjects).1 } :
          DState σ τ).subjects = (startAllE ops 0 st.subjects).1 from rfl,
        startAllE_length, List.append_assoc, List.append_assoc,
        List.append_assoc]
    · intro e he
      simp only [List.append_assoc, List.mem_append,
        List.mem_singleton] at he
      rcases he with he | rfl | he
      · rcases startAllE_events ops st.subjects 0 e he with ⟨j, rfl⟩
        exact ⟨fun i hc => RunEvent.noConfusion hc, fun i hc => RunEvent.noConfusion hc⟩
      · exact ⟨fun i hc => RunEvent.noConfusion hc, fun i hc => RunEvent.noConfusion hc⟩
      · rcases runLoopE_events ops fuel _ e he with ⟨eb, ab, ct, cs, rfl⟩ | rfl
        · exact ⟨fun i hc => RunEvent.noConfusion hc, fun i hc => RunEvent.noConfusion hc⟩
        · exact ⟨fun i hc => RunEvent.noConfusion hc, fun i hc => RunEvent.noConfusion hc⟩

/-- Witness for C4 at the concrete failing scenario: subject 0's
`dispatch` raises at the second dispatch step while subject 1 is never
dispatched; stop and join still reach both subjects. -/
theorem C4_teardown_always_runs_witness :
    (∃ pre : List (RunEvent Nat),
      (runE failOps 10 initC4).1 =
        pre ++ ((List.range initC4.subjects.length).map RunEvent.stopCall ++
          (List.range initC4.subjects.length).map RunEvent.joinCall) ∧
      ∀ e ∈ pre, (∀ i, e ≠ RunEvent.stopCall i) ∧
        (∀ i, e ≠ RunEvent.joinCall i)) ∧
    (runE failOps 10 initC4).1 =
      [RunEvent.started 0, RunEvent.started 1, RunEvent.startSignal,
        RunEvent.step false true (some 0) [],
        RunEvent.stopCall 0, RunEvent.stopCall 1,
        RunEvent.joinCall 0, RunEvent.joinCall 1] :=
  ⟨C4_teardown_always_runs failOps 10 initC4, by decide⟩

end Dispatcher
